import Mathlib

/-!
Shallow embedding of the ingredient-normalization pipeline of
`src/main.ipynb` (Panlasang-Pinoy clustering notebooks), together with
proofs of the behavioural claims about it.

Python strings are modelled as Lean `String` (a list of characters);
Python dictionaries as association lists with `List.lookup`; the external
spaCy tagger as a parameter `nlp : String → List Token`.  `re.sub` for the
two concrete parenthesis-removal patterns used by the source is modelled
by an explicit leftmost, non-overlapping scanner.
-/

namespace PanlasangPinoy

/-! ## Python string primitives -/

/-- Whitespace characters recognised by Python's `str.split()` / `str.strip()`
(ASCII part; the notebooks' data is ASCII). -/
def pyIsSpace (c : Char) : Bool :=
  c == ' ' || c == '\t' || c == '\n' || c == '\r' || c == '\x0b' || c == '\x0c'

/-- Accumulator pass of Python's no-argument `str.split()`: splits on runs of
whitespace and never yields empty words. -/
def pySplitChars : List Char → List Char → List (List Char)
  | [], acc => if acc.isEmpty then [] else [acc.reverse]
  | c :: cs, acc =>
    if pyIsSpace c then
      if acc.isEmpty then pySplitChars cs [] else acc.reverse :: pySplitChars cs []
    else pySplitChars cs (c :: acc)

/-- Python `text.split()` (no separator argument). -/
def pySplit (s : String) : List String :=
  (pySplitChars s.data []).map (fun w => ⟨w⟩)

/-- Character-level `" ".join`. -/
def joinWordsChars : List (List Char) → List Char
  | [] => []
  | [w] => w
  | w :: ws => w ++ ' ' :: joinWordsChars ws

/-- Python `" ".join(words)`. -/
def joinSpace (ws : List String) : String :=
  ⟨joinWordsChars (ws.map String.data)⟩

/-- Python `s.strip()`. -/
def pyStrip (s : String) : String :=
  ⟨((s.data.dropWhile pyIsSpace).reverse.dropWhile pyIsSpace).reverse⟩

/-- Python `s.lower()` (ASCII case folding, as used by the notebooks). -/
def pyLower (s : String) : String :=
  ⟨s.data.map Char.toLower⟩

/-- First segment of Python `s.split(sep)`: the characters before the
leftmost occurrence of `sep`, or the whole list when `sep` never occurs. -/
def splitFirstAux (sep : List Char) : List Char → List Char
  | [] => []
  | c :: cs => if List.isPrefixOf sep (c :: cs) then [] else c :: splitFirstAux sep cs

/-- Model of `select_first_option` of the source: `ingredient.split(" or ")[0]`. -/
def select_first_option (s : String) : String :=
  ⟨splitFirstAux " or ".data s.data⟩

/-! ## Regex substitution for the two parenthesis patterns

`afterClose l` is the suffix of `l` after its first `')'` (the regex piece
`[^)]*\)` consumes exactly up to the first closing parenthesis). -/

def afterClose : List Char → Option (List Char)
  | [] => none
  | c :: cs => if c == ')' then some cs else afterClose cs

/-- Attempt of the regex piece `[^)]+\)` on the characters following a `'('`:
succeeds only when the first `')'` is preceded by at least one character. -/
def tryMatch : List Char → Option (List Char)
  | [] => none
  | d :: ds => if d == ')' then none else afterClose ds

/-- One step of `re.sub(r"\([^)]*\)", "", ·)` (notebook 1's
`preprocess_ingredient`): a match can start only at `'('`. -/
def step1 (c : Char) (cs : List Char) : Option (List Char) :=
  if c == '(' then afterClose cs else none

/-- One step of `re.sub(r" ?\([^)]+\)", "", ·)` (notebook 2's
`remove_parentheses`): a leftmost match starts at a space directly followed
by a viable `'('`, or at a viable `'('` itself. -/
def step2 (c : Char) (cs : List Char) : Option (List Char) :=
  if c == '(' then tryMatch cs
  else if c == ' ' then
    match cs with
    | d :: ds => if d == '(' then tryMatch ds else none
    | [] => none
  else none

/-- Leftmost, non-overlapping substitution driver: at each position either a
match is consumed (`step` returns the continuation) or the character is kept.
`fuel` bounds the number of positions visited; `length + 1` always suffices. -/
def scanSub (step : Char → List Char → Option (List Char)) :
    Nat → List Char → List Char
  | 0, l => l
  | _ + 1, [] => []
  | fuel + 1, c :: cs =>
    match step c cs with
    | some rest => scanSub step fuel rest
    | none => c :: scanSub step fuel cs

/-- Inline step 1 of `preprocess_ingredient`:
`re.sub(r"\([^)]*\)", "", ingredient)`. -/
def sub_parentheses (s : String) : String :=
  ⟨scanSub step1 (s.data.length + 1) s.data⟩

/-- Model of `remove_parentheses` of the source:
`re.sub(r" ?\([^)]+\)", "", ingredient)`. -/
def remove_parentheses (s : String) : String :=
  ⟨scanSub step2 (s.data.length + 1) s.data⟩

/-- Model of `clean_ingredient` of the source: remove parentheses, keep the first
`" or "` alternative, lower-case and strip. -/
def clean_ingredient (s : String) : String :=
  pyStrip (pyLower (select_first_option (remove_parentheses s)))

/-- Holds (`hasMatch2 l = true`) iff the pattern `" ?\([^)]+\)"` still matches
somewhere in `l` (the optional leading space never affects matchability). -/
def hasMatch2 : List Char → Bool
  | [] => false
  | c :: cs => (c == '(' && (tryMatch cs).isSome) || hasMatch2 cs

/-! ## The linguistic stages (notebook 1) -/

/-- Attributes of one spaCy token, as read by the source
(`text`, `lemma_`, `pos_`, `is_alpha`, `is_stop`). -/
structure Token where
  text : String
  lemma_ : String
  pos_ : String
  is_alpha : Bool
  is_stop : Bool
deriving DecidableEq

/-- Words whose POS tag the source forces to `NOUN`. -/
def outliers : List String := ["cauliflower", "baking"]

/-- Model of `lemmatize_valid_nouns` of the source, parameterised by the external
tagger `nlp`. -/
def lemmatize_valid_nouns (nlp : String → List Token) (ingredient : String) : String :=
  joinSpace ((nlp ingredient).filterMap (fun token =>
    let pos := if outliers.contains token.text then "NOUN" else token.pos_
    if token.is_alpha && !token.is_stop && (pos == "NOUN" || pos == "PROPN")
    then some token.lemma_ else none))

/-- Model of `filter_stopwords` of the source, parameterised by the stopword list. -/
def filter_stopwords (stopwords : List String) (text : String) : String :=
  joinSpace ((pySplit text).filter (fun term => !stopwords.contains term))

/-- Model of `handle_word_synonym` of the source: per-word `dict.get(word, word)`. -/
def handle_word_synonym (word_synonyms : List (String × String)) (ingredient : String) : String :=
  joinSpace ((pySplit ingredient).map (fun word => (List.lookup word word_synonyms).getD word))

/-- Keep the first occurrence of each word (Python seen-set loop). -/
def firstOccur (seen : List String) : List String → List String
  | [] => []
  | w :: ws => if seen.contains w then firstOccur seen ws else w :: firstOccur (w :: seen) ws

/-- Model of `remove_duplicates` of the source. -/
def remove_duplicates (text : String) : String :=
  joinSpace (firstOccur [] (pySplit text))

/-- A JSON value that is either a single string or a list of strings, as the
phrase-level dictionaries of the source may contain
(`clean_ingredients` branches on `isinstance(cleaned, list)`). -/
inductive StrOrList where
  | str : String → StrOrList
  | list : List String → StrOrList
deriving DecidableEq

/-- Model of `handle_phrase_synonym` of the source: whole-string `dict.get(s, s)`. -/
def handle_phrase_synonym (phrase_synonyms : List (String × StrOrList)) (ingredient : String) :
    StrOrList :=
  (List.lookup ingredient phrase_synonyms).getD (.str ingredient)

/-- Stages of `preprocess_ingredient` up to (not including) the phrase-level
lookup: text cleaning, lemmatization, stopword filtering, word-level
synonyms, order-preserving dedup. -/
def standardize_ingredient (nlp : String → List Token) (stopwords : List String)
    (word_synonyms : List (String × String)) (ingredient : String) : String :=
  let no_parenthesis := sub_parentheses ingredient
  let first_option := select_first_option no_parenthesis
  let formatted := pyStrip (pyLower first_option)
  let lemmatized := lemmatize_valid_nouns nlp formatted
  let filtered := filter_stopwords stopwords lemmatized
  let word_synonym := handle_word_synonym word_synonyms filtered
  remove_duplicates word_synonym

/-- Model of `preprocess_ingredient` of the source. -/
def preprocess_ingredient (nlp : String → List Token) (stopwords : List String)
    (word_synonyms : List (String × String)) (phrase_synonyms : List (String × StrOrList))
    (ingredient : String) : StrOrList :=
  handle_phrase_synonym phrase_synonyms
    (standardize_ingredient nlp stopwords word_synonyms ingredient)

/-- How `clean_ingredients` treats one `preprocess_ingredient` result:
`extend` for a list, `append` for a string. -/
def flattenCleaned : StrOrList → List String
  | .str s => [s]
  | .list l => l

/-- Insertion into a strictly sorted duplicate-free list, skipping elements
already present: the model of Python's `sorted(set(...))` one element at a
time. -/
def insertDedup (x : String) : List String → List String
  | [] => [x]
  | y :: ys =>
    if x.data < y.data then x :: y :: ys
    else if x = y then y :: ys
    else y :: insertDedup x ys

/-- Model of `list(sorted(set(l)))`: the strictly ascending enumeration of the
distinct elements of `l`. -/
def sortDedup : List String → List String
  | [] => []
  | x :: xs => insertDedup x (sortDedup xs)

/-- Model of `clean_ingredients` of the source: apply `preprocess_ingredient` to every
raw ingredient, flatten, drop empty strings (`filter(None, ...)`), and return
`list(sorted(set(...)))`. -/
def clean_ingredients (nlp : String → List Token) (stopwords : List String)
    (word_synonyms : List (String × String)) (phrase_synonyms : List (String × StrOrList))
    (ingredients : List String) : List String :=
  sortDedup
    ((((ingredients.map (preprocess_ingredient nlp stopwords word_synonyms phrase_synonyms)).flatMap
        flattenCleaned).filter (fun s => s != "")))

/-! ## Corpus-level filters -/

/-- The static denylist of the source ("common ingredients not specific to
Filipino cuisine"). -/
def ingredients_to_remove : List String :=
  ["oil", "salt", "onion", "sugar", "pepper", "garlic"]

/-- First `remove_rare_ingredients` definition of the source (denylist
removal); renamed here because the notebook reuses the name. -/
def remove_common_ingredients (ingredients : List String) : List String :=
  ingredients.filter (fun i => !ingredients_to_remove.contains i)

def MIN_FREQUENCY : Nat := 5

/-- Corpus-wide occurrence count of one ingredient:
`recipe_df["cleaned_ingredients"].explode().value_counts()[i]`. -/
def countOcc (corpus : List (List String)) (ingredient : String) : Nat :=
  (corpus.flatMap id).count ingredient

/-- Model of `rare_ingredients` of the source: the distinct ingredients whose corpus
count is at most `minFreq` (`counts[counts <= MIN_FREQUENCY].index`). -/
def rare_ingredients (corpus : List (List String)) (minFreq : Nat) : List String :=
  ((corpus.flatMap id).dedup).filter (fun i => decide (countOcc corpus i ≤ minFreq))

/-- Second `remove_rare_ingredients` definition of the source. -/
def remove_rare_ingredients (rare : List String) (ingredients : List String) : List String :=
  ingredients.filter (fun i => !rare.contains i)

/-- Phase B of the corpus frequency filter as executed by the source:
denylist removal, then rare-ingredient removal with counts taken over the
original (pre-filter) corpus. -/
def phaseB (corpus : List (List String)) (minFreq : Nat) (r : List String) : List String :=
  remove_rare_ingredients (rare_ingredients corpus minFreq) (remove_common_ingredients r)

def MIN_INGREDIENT : Nat := 4
def MAX_INGREDIENT : Nat := 9

/-- Phase C of the source: keep recipes whose ingredient count lies in the
inclusive range `[minc, maxc]`. -/
def filter_recipes_by_size (minc maxc : Nat) (corpus : List (List String)) :
    List (List String) :=
  corpus.filter (fun r => decide (minc ≤ r.length) && decide (r.length ≤ maxc))

/-- Model of `break_down_ingredient` of the source (notebook 2):
`components = dict.get(ingredient, ingredient)`, wrapped in a singleton when
it is a string. -/
def break_down_ingredient (ingredient_components : List (String × StrOrList))
    (ingredient : String) : List String :=
  match (List.lookup ingredient ingredient_components).getD (.str ingredient) with
  | .str s => [s]
  | .list l => l

/-- Number of recipes whose `cleaned_ingredients` contain an ingredient. -/
def recipes_containing (corpus : List (List String)) (ingredient : String) : Nat :=
  (corpus.filter (fun r => r.contains ingredient)).length

/-- Mapping the per-recipe aggregator over a whole corpus. -/
def processCorpus (nlp : String → List Token) (stopwords : List String)
    (word_synonyms : List (String × String)) (phrase_synonyms : List (String × StrOrList))
    (corpus : List (List String)) : List (List String) :=
  corpus.map (clean_ingredients nlp stopwords word_synonyms phrase_synonyms)

/-! ## Derived predicates used by the claims -/

/-- A string all of whose characters are whitespace (in particular `""`). -/
def isBlank (s : String) : Bool := s.data.all pyIsSpace

/-- Whitespace-normalized: splitting on whitespace and re-joining with single
spaces is the identity (no leading/trailing whitespace, single separators,
and `""` when there are no words). -/
def isNormalized (s : String) : Prop := joinSpace (pySplit s) = s

/-- A word as the stages emit them: nonempty and free of whitespace. -/
def goodWord (w : String) : Prop := w ≠ "" ∧ ∀ c ∈ w.data, pyIsSpace c = false

instance (s : String) : Decidable (isNormalized s) := by
  unfold isNormalized
  infer_instance

instance (w : String) : Decidable (goodWord w) := by
  unfold goodWord
  infer_instance

/-- Boolean sanity condition on one phrase-level dictionary value: no
component string is whitespace-only unless it is empty. -/
def valOkB : StrOrList → Bool
  | .str v => !isBlank v || v == ""
  | .list l => l.all (fun v => !isBlank v || v == "")

/-- Toy deterministic tagger used for concrete evaluations: every
whitespace-separated word is an alphabetic non-stop noun whose lemma is
itself. -/
def toyNlp (s : String) : List Token :=
  (pySplit s).map (fun w => ⟨w, w, "NOUN", true, false⟩)

end PanlasangPinoy

namespace PanlasangPinoy

/-! ## Helper lemmas: splitting and joining -/

theorem data_eq_nil_iff (s : String) : s.data = [] ↔ s = "" := by
  constructor
  · intro h
    cases s with
    | mk d => cases h; rfl
  · intro h; subst h; rfl

theorem pySplitChars_good : ∀ (cs acc : List Char), (∀ c ∈ acc, pyIsSpace c = false) →
    ∀ w ∈ pySplitChars cs acc, w ≠ [] ∧ ∀ c ∈ w, pyIsSpace c = false := by
  intro cs
  induction cs with
  | nil =>
    intro acc hacc w hw
    rw [pySplitChars] at hw
    split at hw
    · simp at hw
    · next h =>
      rcases List.mem_singleton.mp hw with rfl
      refine ⟨by simpa [List.isEmpty_iff] using h, ?_⟩
      intro c hc; exact hacc c (List.mem_reverse.mp hc)
  | cons c cs ih =>
    intro acc hacc w hw
    rw [pySplitChars] at hw
    by_cases hsp : pyIsSpace c = true
    · rw [if_pos hsp] at hw
      by_cases hae : acc.isEmpty
      · rw [if_pos hae] at hw
        exact ih [] (by simp) w hw
      · rw [if_neg hae] at hw
        rcases List.mem_cons.mp hw with rfl | hw
        · refine ⟨by simpa [List.isEmpty_iff] using hae, ?_⟩
          intro d hd; exact hacc d (List.mem_reverse.mp hd)
        · exact ih [] (by simp) w hw
    · rw [if_neg hsp] at hw
      refine ih (c :: acc) ?_ w hw
      intro d hd
      rcases List.mem_cons.mp hd with rfl | hd
      · exact Bool.not_eq_true _ ▸ hsp
      · exact hacc d hd

theorem pySplit_good (s : String) : ∀ w ∈ pySplit s, goodWord w := by
  intro w hw
  rcases List.mem_map.mp hw with ⟨wc, hwc, rfl⟩
  have h := pySplitChars_good s.data [] (by simp) wc hwc
  refine ⟨?_, h.2⟩
  intro hEq
  exact h.1 ((data_eq_nil_iff ⟨wc⟩).mpr hEq)

theorem pySplitChars_append_word : ∀ (w : List Char), (∀ c ∈ w, pyIsSpace c = false) →
    ∀ (cs acc : List Char), pySplitChars (w ++ cs) acc = pySplitChars cs (w.reverse ++ acc) := by
  intro w
  induction w with
  | nil => intro _ cs acc; simp
  | cons c w ih =>
    intro hg cs acc
    have hc : pyIsSpace c = false := hg c (List.mem_cons_self c w)
    rw [List.cons_append, pySplitChars, if_neg (by simp [hc]),
      ih (fun d hd => hg d (List.mem_cons_of_mem c hd)) cs (c :: acc)]
    simp [List.append_assoc]

theorem joinWordsChars_cons (w : List Char) (ws : List (List Char)) :
    joinWordsChars (w :: ws) = w ++ (if ws.isEmpty then [] else ' ' :: joinWordsChars ws) := by
  cases ws <;> simp [joinWordsChars]

theorem pySplitChars_joinWords : ∀ (ws : List (List Char)),
    (∀ w ∈ ws, w ≠ [] ∧ ∀ c ∈ w, pyIsSpace c = false) →
    pySplitChars (joinWordsChars ws) [] = ws := by
  intro ws
  induction ws with
  | nil => intro _; rfl
  | cons w ws ih =>
    intro hg
    have hw := hg w (List.mem_cons_self w ws)
    cases ws with
    | nil =>
      show pySplitChars w [] = [w]
      rw [← List.append_nil w, pySplitChars_append_word w hw.2, pySplitChars,
        if_neg (by simpa [List.isEmpty_iff] using hw.1)]
      simp
    | cons v vs =>
      have hjoin : joinWordsChars (w :: v :: vs) = w ++ ' ' :: joinWordsChars (v :: vs) := rfl
      rw [hjoin, pySplitChars_append_word w hw.2, pySplitChars,
        if_pos (show pyIsSpace ' ' = true from rfl),
        if_neg (by simpa [List.isEmpty_iff] using hw.1)]
      simp only [List.append_nil, List.reverse_reverse]
      rw [ih (fun u hu => hg u (List.mem_cons_of_mem w hu))]

theorem pySplit_joinSpace (ws : List String) (h : ∀ w ∈ ws, goodWord w) :
    pySplit (joinSpace ws) = ws := by
  unfold pySplit joinSpace
  rw [pySplitChars_joinWords (ws.map String.data) ?_]
  · rw [List.map_map]
    have hcomp : ((fun w => (⟨w⟩ : String)) ∘ String.data) = id := funext fun s => rfl
    rw [hcomp, List.map_id]
  · intro wc hwc
    rcases List.mem_map.mp hwc with ⟨w, hwmem, rfl⟩
    have hgw := h w hwmem
    refine ⟨?_, hgw.2⟩
    intro hnil
    exact hgw.1 ((data_eq_nil_iff w).mp hnil)

theorem isNormalized_joinSpace (ws : List String) (h : ∀ w ∈ ws, goodWord w) :
    isNormalized (joinSpace ws) := by
  unfold isNormalized
  rw [pySplit_joinSpace ws h]

theorem blank_joinSpace (ws : List String) (h : ∀ w ∈ ws, goodWord w)
    (hb : isBlank (joinSpace ws) = true) : joinSpace ws = "" := by
  cases ws with
  | nil => rfl
  | cons w ws =>
    exfalso
    have hg := h w (List.mem_cons_self w ws)
    obtain ⟨c, cs, hc⟩ : ∃ c cs, w.data = c :: cs := by
      cases hd : w.data with
      | nil => exact absurd ((data_eq_nil_iff w).mp hd) hg.1
      | cons c cs => exact ⟨c, cs, rfl⟩
    have hcs : pyIsSpace c = false := hg.2 c (by rw [hc]; exact List.mem_cons_self c cs)
    unfold isBlank joinSpace at hb
    simp only [List.map_cons, joinWordsChars_cons] at hb
    rw [List.all_eq_true] at hb
    have : pyIsSpace c = true := hb c (by rw [List.mem_append]; left; rw [hc]; exact List.mem_cons_self c cs)
    rw [hcs] at this
    exact Bool.false_ne_true this

theorem normalized_blank (s : String) (hn : isNormalized s) (hb : isBlank s = true) :
    s = "" := by
  rw [← hn] at hb ⊢
  exact blank_joinSpace _ (fun w hw => pySplit_good s w hw) hb

/-! ## Helper lemmas: the linguistic stages -/

theorem filter_stopwords_normalized (stopwords : List String) (t : String) :
    isNormalized (filter_stopwords stopwords t) :=
  isNormalized_joinSpace _ (fun w hw => pySplit_good t w (List.mem_filter.mp hw).1)

theorem firstOccur_subset : ∀ (ws seen : List String) (w : String),
    w ∈ firstOccur seen ws → w ∈ ws := by
  intro ws
  induction ws with
  | nil => intro seen w h; simp [firstOccur] at h
  | cons v vs ih =>
    intro seen w h
    rw [firstOccur] at h
    split at h
    · exact List.mem_cons_of_mem v (ih _ w h)
    · rcases List.mem_cons.mp h with rfl | h
      · exact List.mem_cons_self w vs
      · exact List.mem_cons_of_mem v (ih _ w h)

theorem remove_duplicates_normalized (t : String) : isNormalized (remove_duplicates t) :=
  isNormalized_joinSpace _ (fun w hw => pySplit_good t w (firstOccur_subset _ _ w hw))

theorem lookup_mem {β : Type} : ∀ (l : List (String × β)) (a : String) (v : β),
    List.lookup a l = some v → (a, v) ∈ l := by
  intro l
  induction l with
  | nil => intro a v h; simp [List.lookup] at h
  | cons p ps ih =>
    intro a v h
    obtain ⟨k, b⟩ := p
    rw [List.lookup] at h
    by_cases hbeq : (a == k) = true
    · rw [hbeq] at h
      have hbv : b = v := by simpa using h
      have hak : a = k := eq_of_beq hbeq
      subst hbv; subst hak
      exact List.mem_cons_self _ _
    · rw [Bool.not_eq_true] at hbeq
      rw [hbeq] at h
      exact List.mem_cons_of_mem _ (ih a v h)

theorem handle_word_synonym_normalized (word_synonyms : List (String × String)) (t : String)
    (hv : ∀ p ∈ word_synonyms, goodWord p.2) :
    isNormalized (handle_word_synonym word_synonyms t) := by
  apply isNormalized_joinSpace
  intro w hw
  rcases List.mem_map.mp hw with ⟨u, hu, rfl⟩
  cases hl : List.lookup u word_synonyms with
  | none => simpa [hl] using pySplit_good t u hu
  | some v =>
    have := hv (u, v) (lookup_mem _ _ _ hl)
    simpa [hl] using this

theorem mem_filterMap_guard {α : Type} {p : α → Bool} {g : α → String} {l : List α} {w : String}
    (hw : w ∈ l.filterMap (fun a => if p a then some (g a) else none)) :
    ∃ a ∈ l, w = g a := by
  rcases List.mem_filterMap.mp hw with ⟨a, ha, hf⟩
  by_cases hp : p a = true
  · rw [if_pos hp] at hf
    exact ⟨a, ha, (Option.some.inj hf).symm⟩
  · rw [if_neg hp] at hf
    exact absurd hf (by simp)

theorem lemmatize_valid_nouns_normalized (nlp : String → List Token) (s : String)
    (hv : ∀ tok ∈ nlp s, goodWord tok.lemma_) :
    isNormalized (lemmatize_valid_nouns nlp s) := by
  apply isNormalized_joinSpace
  intro w hw
  have h2 : ∃ tok ∈ nlp s, w = tok.lemma_ :=
    mem_filterMap_guard
      (p := fun token => token.is_alpha && !token.is_stop &&
        ((if outliers.contains token.text then "NOUN" else token.pos_) == "NOUN" ||
         (if outliers.contains token.text then "NOUN" else token.pos_) == "PROPN"))
      (g := fun token => token.lemma_) hw
  rcases h2 with ⟨tok, htok, rfl⟩
  exact hv tok htok

/-! ## Helper lemmas: sorted deduplication -/

theorem mem_insertDedup (x a : String) : ∀ (l : List String),
    a ∈ insertDedup x l ↔ a = x ∨ a ∈ l := by
  intro l
  induction l with
  | nil => simp [insertDedup]
  | cons y ys ih =>
    rw [insertDedup]
    split
    · simp [List.mem_cons]
    · split
      · next hxy =>
        subst hxy
        simp [List.mem_cons]
      · simp only [List.mem_cons, ih]
        tauto

theorem string_data_inj {x y : String} (h : x.data = y.data) : x = y := by
  cases x with
  | mk d =>
    cases y with
    | mk e => cases h; rfl

theorem pairwise_insertDedup (x : String) : ∀ (l : List String),
    l.Pairwise (fun a b => a.data < b.data) →
    (insertDedup x l).Pairwise (fun a b => a.data < b.data) := by
  intro l
  induction l with
  | nil => intro _; simp [insertDedup]
  | cons y ys ih =>
    intro hp
    rcases List.pairwise_cons.mp hp with ⟨hy, hys⟩
    rw [insertDedup]
    split
    · next hxy =>
      refine List.pairwise_cons.mpr ⟨?_, hp⟩
      intro z hz
      rcases List.mem_cons.mp hz with rfl | hz
      · exact hxy
      · exact lt_trans hxy (hy z hz)
    · next hnxy =>
      split
      · exact hp
      · next hne =>
        have hyx : y.data < x.data := by
          rcases lt_trichotomy x.data y.data with h | h | h
          · exact absurd h hnxy
          · exact absurd (string_data_inj h) hne
          · exact h
        refine List.pairwise_cons.mpr ⟨?_, ih hys⟩
        intro z hz
        rcases (mem_insertDedup x z ys).mp hz with rfl | hz
        · exact hyx
        · exact hy z hz

theorem pairwise_sortDedup : ∀ (l : List String),
    (sortDedup l).Pairwise (fun a b => a.data < b.data) := by
  intro l
  induction l with
  | nil => simp [sortDedup]
  | cons x xs ih => exact pairwise_insertDedup x _ ih

theorem pairwise_sortDedup_lt (l : List String) : (sortDedup l).Pairwise (· < ·) :=
  (pairwise_sortDedup l).imp (fun h => String.lt_iff_toList_lt.mpr h)

theorem mem_sortDedup (a : String) : ∀ (l : List String), a ∈ sortDedup l ↔ a ∈ l := by
  intro l
  induction l with
  | nil => simp [sortDedup]
  | cons x xs ih =>
    rw [sortDedup, mem_insertDedup]
    simp [ih]

theorem nodup_sortDedup (l : List String) : (sortDedup l).Nodup :=
  (pairwise_sortDedup_lt l).imp ne_of_lt

theorem sortDedup_of_pairwise : ∀ (l : List String),
    l.Pairwise (fun a b => a.data < b.data) → sortDedup l = l := by
  intro l
  induction l with
  | nil => intro _; rfl
  | cons x xs ih =>
    intro hp
    rcases List.pairwise_cons.mp hp with ⟨hx, hxs⟩
    rw [sortDedup, ih hxs]
    cases xs with
    | nil => rfl
    | cons y ys => rw [insertDedup, if_pos (hx y (List.mem_cons_self y ys))]

end PanlasangPinoy

namespace PanlasangPinoy

/-! ## Helper lemmas: the parenthesis scanners -/

theorem afterClose_length : ∀ (l r : List Char), afterClose l = some r → r.length < l.length := by
  intro l
  induction l with
  | nil => intro r h; simp [afterClose] at h
  | cons c cs ih =>
    intro r h
    rw [afterClose] at h
    split at h
    · cases h; exact Nat.lt_succ_self _
    · exact Nat.lt_trans (ih r h) (Nat.lt_succ_self _)

theorem afterClose_mem : ∀ (l r : List Char), afterClose l = some r → ∀ x ∈ r, x ∈ l := by
  intro l
  induction l with
  | nil => intro r h; simp [afterClose] at h
  | cons c cs ih =>
    intro r h x hx
    rw [afterClose] at h
    split at h
    · cases h; exact List.mem_cons_of_mem _ hx
    · exact List.mem_cons_of_mem _ (ih r h x hx)

theorem afterClose_none_mem : ∀ (l : List Char), afterClose l = none → ')' ∉ l := by
  intro l
  induction l with
  | nil => intro _ h; simp at h
  | cons c cs ih =>
    intro h hmem
    rw [afterClose] at h
    split at h
    · exact Option.some_ne_none _ h
    · next hc =>
      rcases List.mem_cons.mp hmem with rfl | hmem
      · simp at hc
      · exact ih h hmem

theorem tryMatch_length : ∀ (cs r : List Char), tryMatch cs = some r → r.length < cs.length := by
  intro cs r h
  cases cs with
  | nil => simp [tryMatch] at h
  | cons d ds =>
    rw [tryMatch] at h
    split at h
    · exact absurd h (by simp)
    · exact Nat.lt_trans (afterClose_length ds r h) (Nat.lt_succ_self _)

theorem tryMatch_mem : ∀ (cs r : List Char), tryMatch cs = some r → ∀ x ∈ r, x ∈ cs := by
  intro cs r h x hx
  cases cs with
  | nil => simp [tryMatch] at h
  | cons d ds =>
    rw [tryMatch] at h
    split at h
    · exact absurd h (by simp)
    · exact List.mem_cons_of_mem _ (afterClose_mem ds r h x hx)

theorem afterClose_none_of_no_close : ∀ (l : List Char), ')' ∉ l → afterClose l = none := by
  intro l
  induction l with
  | nil => intro _; rfl
  | cons c cs ih =>
    intro h
    rw [afterClose]
    split
    · next hc =>
      exact absurd (by rw [eq_of_beq hc]; exact List.mem_cons_self _ _) h
    · exact ih (fun hm => h (List.mem_cons_of_mem c hm))

theorem tryMatch_none_of_no_close : ∀ (l : List Char), ')' ∉ l → tryMatch l = none := by
  intro l h
  cases l with
  | nil => rfl
  | cons d ds =>
    rw [tryMatch]
    split
    · rfl
    · exact afterClose_none_of_no_close ds (fun hm => h (List.mem_cons_of_mem d hm))

theorem step2_some_length : ∀ (c : Char) (cs rest : List Char),
    step2 c cs = some rest → rest.length < cs.length := by
  intro c cs rest h
  unfold step2 at h
  split at h
  · exact tryMatch_length cs rest h
  · split at h
    · split at h
      · next d ds _ =>
        split at h
        · exact Nat.lt_trans (tryMatch_length _ _ h) (Nat.lt_succ_self _)
        · exact absurd h (by simp)
      · exact absurd h (by simp)
    · exact absurd h (by simp)

theorem step2_some_mem : ∀ (c : Char) (cs rest : List Char),
    step2 c cs = some rest → ∀ x ∈ rest, x ∈ cs := by
  intro c cs rest h x hx
  unfold step2 at h
  split at h
  · exact tryMatch_mem cs rest h x hx
  · split at h
    · split at h
      · next d ds _ =>
        split at h
        · exact List.mem_cons_of_mem _ (tryMatch_mem _ _ h x hx)
        · exact absurd h (by simp)
      · exact absurd h (by simp)
    · exact absurd h (by simp)

theorem scanSub_mem : ∀ (fuel : Nat) (l : List Char), ∀ x ∈ scanSub step2 fuel l, x ∈ l := by
  intro fuel
  induction fuel with
  | zero => intro l x hx; exact hx
  | succ fuel ih =>
    intro l x hx
    cases l with
    | nil => simp [scanSub] at hx
    | cons c cs =>
      rw [scanSub] at hx
      cases hs : step2 c cs with
      | some rest =>
        rw [hs] at hx
        exact List.mem_cons_of_mem _ (step2_some_mem c cs rest hs x (ih rest x hx))
      | none =>
        rw [hs] at hx
        rcases List.mem_cons.mp hx with rfl | hx
        · exact List.mem_cons_self _ _
        · exact List.mem_cons_of_mem _ (ih cs x hx)

theorem tryMatch_scanSub_none (fuel : Nat) (cs : List Char) (htm : tryMatch cs = none) :
    tryMatch (scanSub step2 fuel cs) = none := by
  cases cs with
  | nil => cases fuel <;> rfl
  | cons d ds =>
    rw [tryMatch] at htm
    by_cases hd : (d == ')') = true
    · have hd' : d = ')' := eq_of_beq hd
      subst hd'
      cases fuel with
      | zero => rfl
      | succ f =>
        rw [scanSub]
        have hstep : step2 ')' ds = none := rfl
        rw [hstep, tryMatch]
        rw [if_pos (show (')' == ')') = true from rfl)]
    · rw [if_neg hd] at htm
      have hno : ')' ∉ d :: ds := by
        intro hmem
        rcases List.mem_cons.mp hmem with heq | hmem
        · exact hd (by rw [heq]; exact beq_self_eq_true _)
        · exact afterClose_none_mem ds htm hmem
      have hnoR : ')' ∉ scanSub step2 fuel (d :: ds) :=
        fun hx => hno (scanSub_mem fuel (d :: ds) ')' hx)
      exact tryMatch_none_of_no_close _ hnoR

theorem hasMatch2_scanSub : ∀ (fuel : Nat) (l : List Char), l.length ≤ fuel →
    hasMatch2 (scanSub step2 fuel l) = false := by
  intro fuel
  induction fuel with
  | zero =>
    intro l hl
    have hnil : l = [] := List.length_eq_zero.mp (Nat.le_zero.mp hl)
    subst hnil
    rfl
  | succ fuel ih =>
    intro l hl
    cases l with
    | nil => rfl
    | cons c cs =>
      rw [scanSub]
      cases hs : step2 c cs with
      | some rest =>
        have hlen : rest.length < cs.length := step2_some_length c cs rest hs
        exact ih rest (Nat.le_of_lt (Nat.lt_of_lt_of_le hlen (Nat.le_of_succ_le_succ hl)))
      | none =>
        rw [hasMatch2]
        have hR : hasMatch2 (scanSub step2 fuel cs) = false :=
          ih cs (Nat.le_of_succ_le_succ hl)
        rw [hR, Bool.or_false]
        by_cases hc : (c == '(') = true
        · have htm : tryMatch cs = none := by
            unfold step2 at hs
            rwa [if_pos hc] at hs
          rw [tryMatch_scanSub_none fuel cs htm]
          simp
        · rw [Bool.not_eq_true] at hc
          rw [hc, Bool.false_and]

/-- The pattern `" ?\([^)]+\)"` never matches in the output of
`remove_parentheses`: every removable parenthesized group is gone. -/
theorem remove_parentheses_no_match (s : String) :
    hasMatch2 (remove_parentheses s).data = false :=
  hasMatch2_scanSub (s.data.length + 1) s.data (Nat.le_succ _)

end PanlasangPinoy

namespace PanlasangPinoy

/-! ## Helper lemmas: the recipe aggregator -/

theorem contains_iff_mem (l : List String) (a : String) : l.contains a = true ↔ a ∈ l :=
  List.elem_iff

theorem mem_clean_ingredients (nlp : String → List Token) (stopwords : List String)
    (word_synonyms : List (String × String)) (phrase_synonyms : List (String × StrOrList))
    (ings : List String) (x : String) :
    x ∈ clean_ingredients nlp stopwords word_synonyms phrase_synonyms ings ↔
      x ≠ "" ∧ ∃ ing ∈ ings,
        x ∈ flattenCleaned (preprocess_ingredient nlp stopwords word_synonyms phrase_synonyms ing) := by
  unfold clean_ingredients
  rw [mem_sortDedup, List.mem_filter, List.mem_flatMap]
  constructor
  · rintro ⟨⟨a, ha, hx⟩, hne⟩
    rcases List.mem_map.mp ha with ⟨ing, hing, rfl⟩
    exact ⟨by simpa using hne, ing, hing, hx⟩
  · rintro ⟨hne, ing, hing, hx⟩
    exact ⟨⟨_, List.mem_map_of_mem _ hing, hx⟩, by simpa using hne⟩

theorem flatten_preprocess_blank (nlp : String → List Token) (stopwords : List String)
    (word_synonyms : List (String × String)) (phrase_synonyms : List (String × StrOrList))
    (hps : ∀ p ∈ phrase_synonyms, valOkB p.2 = true) (ing x : String)
    (hx : x ∈ flattenCleaned (preprocess_ingredient nlp stopwords word_synonyms phrase_synonyms ing))
    (hb : isBlank x = true) : x = "" := by
  unfold preprocess_ingredient handle_phrase_synonym at hx
  cases hl : List.lookup (standardize_ingredient nlp stopwords word_synonyms ing) phrase_synonyms with
  | none =>
    rw [hl] at hx
    simp only [Option.getD_none, flattenCleaned, List.mem_singleton] at hx
    subst hx
    exact normalized_blank _ (remove_duplicates_normalized _) hb
  | some v =>
    rw [hl] at hx
    simp only [Option.getD_some] at hx
    have hv := hps _ (lookup_mem _ _ _ hl)
    cases v with
    | str u =>
      simp only [flattenCleaned, List.mem_singleton] at hx
      subst hx
      simp only [valOkB, hb, Bool.not_true, Bool.false_or, beq_iff_eq] at hv
      exact hv
    | list l =>
      simp only [flattenCleaned] at hx
      simp only [valOkB, List.all_eq_true] at hv
      have hone := hv x hx
      simp only [hb, Bool.not_true, Bool.false_or, beq_iff_eq] at hone
      exact hone

theorem flatMap_fixed : ∀ (l : List String) (f : String → StrOrList),
    (∀ x ∈ l, flattenCleaned (f x) = [x]) → (l.map f).flatMap flattenCleaned = l := by
  intro l f
  induction l with
  | nil => intro _; rfl
  | cons x xs ih =>
    intro h
    rw [List.map_cons, List.flatMap_cons, h x (List.mem_cons_self _ _),
      ih (fun y hy => h y (List.mem_cons_of_mem _ hy))]
    rfl

/-! ## Claim C1 -/

/-- C1: for every raw ingredient string, `preprocess_ingredient` as flattened
by `clean_ingredients` implements exactly the component-expansion semantics of
`break_down_ingredient` applied to the phrase-resolved string: a sequence
entry is returned verbatim (one level deep, no re-lookup), a string entry as
a singleton, and a missing entry as the singleton of the unchanged string. -/
theorem C1_component_expansion (nlp : String → List Token) (stopwords : List String)
    (word_synonyms : List (String × String)) (phrase_synonyms : List (String × StrOrList))
    (ingredient : String) :
    flattenCleaned (preprocess_ingredient nlp stopwords word_synonyms phrase_synonyms ingredient)
      = break_down_ingredient phrase_synonyms
          (standardize_ingredient nlp stopwords word_synonyms ingredient) ∧
    (List.lookup (standardize_ingredient nlp stopwords word_synonyms ingredient)
        phrase_synonyms = none →
      flattenCleaned (preprocess_ingredient nlp stopwords word_synonyms phrase_synonyms ingredient)
        = [standardize_ingredient nlp stopwords word_synonyms ingredient]) ∧
    (∀ c, List.lookup (standardize_ingredient nlp stopwords word_synonyms ingredient)
        phrase_synonyms = some (.str c) →
      flattenCleaned (preprocess_ingredient nlp stopwords word_synonyms phrase_synonyms ingredient)
        = [c]) ∧
    (∀ l, List.lookup (standardize_ingredient nlp stopwords word_synonyms ingredient)
        phrase_synonyms = some (.list l) →
      flattenCleaned (preprocess_ingredient nlp stopwords word_synonyms phrase_synonyms ingredient)
        = l) := by
  unfold preprocess_ingredient handle_phrase_synonym break_down_ingredient
  refine ⟨?_, ?_, ?_, ?_⟩
  · cases hl : List.lookup (standardize_ingredient nlp stopwords word_synonyms ingredient)
      phrase_synonyms with
    | none => simp [flattenCleaned]
    | some v => cases v <;> simp [flattenCleaned]
  · intro hl; rw [hl]; simp [flattenCleaned]
  · intro c hl; rw [hl]; simp [flattenCleaned]
  · intro l hl; rw [hl]; simp [flattenCleaned]

/-- Concrete phrase dictionary for the C1 witness: note `"a"` expands to
`["b", "c"]` although `"b"` has its own entry, exhibiting one-level-deep
expansion. -/
def psynC1 : List (String × StrOrList) :=
  [("a", .list ["b", "c"]), ("b", .str "z"), ("d", .str "e")]

theorem C1_witness :
    flattenCleaned (preprocess_ingredient toyNlp [] [] psynC1 "a") = ["b", "c"] ∧
    flattenCleaned (preprocess_ingredient toyNlp [] [] psynC1 "d") = ["e"] ∧
    flattenCleaned (preprocess_ingredient toyNlp [] [] psynC1 "q") = ["q"] :=
  ⟨(C1_component_expansion toyNlp [] [] psynC1 "a").2.2.2 ["b", "c"] (by decide),
   (C1_component_expansion toyNlp [] [] psynC1 "d").2.2.1 "e" (by decide),
   (C1_component_expansion toyNlp [] [] psynC1 "q").2.1 (by decide)⟩

end PanlasangPinoy

namespace PanlasangPinoy

/-! ## Claim C2 -/

/-- C2 counterexample: `clean_ingredients` only filters out the empty string
(`filter(None, ...)`), so a phrase-level dictionary value that is
whitespace-only but nonempty survives into `cleaned_ingredients`,
contradicting the claim that no whitespace-only string ever appears. -/
theorem C2_counterexample :
    " " ∈ clean_ingredients toyNlp [] [] [("a", StrOrList.str " ")] ["a"] ∧
    isBlank " " = true ∧ (" " : String) ≠ "" := by
  refine ⟨?_, by decide, by decide⟩
  decide

/-- C2 amended: after `clean_ingredients` (and stable under the denylist
removal and the rare-ingredient removal, which are plain filters), the list
is strictly sorted, duplicate-free and free of empty strings; it is
additionally free of whitespace-only strings provided no phrase-level
dictionary value is whitespace-only-but-nonempty. -/
theorem C2_sorted_dedup_noblank (nlp : String → List Token) (stopwords : List String)
    (word_synonyms : List (String × String)) (phrase_synonyms : List (String × StrOrList))
    (ings rare : List String)
    (hps : ∀ p ∈ phrase_synonyms, valOkB p.2 = true) :
    ((clean_ingredients nlp stopwords word_synonyms phrase_synonyms ings).Pairwise (· < ·) ∧
      (clean_ingredients nlp stopwords word_synonyms phrase_synonyms ings).Nodup ∧
      ∀ x ∈ clean_ingredients nlp stopwords word_synonyms phrase_synonyms ings,
        x ≠ "" ∧ isBlank x = false) ∧
    ((remove_common_ingredients
        (clean_ingredients nlp stopwords word_synonyms phrase_synonyms ings)).Pairwise (· < ·) ∧
      (remove_common_ingredients
        (clean_ingredients nlp stopwords word_synonyms phrase_synonyms ings)).Nodup ∧
      ∀ x ∈ remove_common_ingredients
          (clean_ingredients nlp stopwords word_synonyms phrase_synonyms ings),
        x ≠ "" ∧ isBlank x = false) ∧
    ((remove_rare_ingredients rare (remove_common_ingredients
        (clean_ingredients nlp stopwords word_synonyms phrase_synonyms ings))).Pairwise (· < ·) ∧
      (remove_rare_ingredients rare (remove_common_ingredients
        (clean_ingredients nlp stopwords word_synonyms phrase_synonyms ings))).Nodup ∧
      ∀ x ∈ remove_rare_ingredients rare (remove_common_ingredients
          (clean_ingredients nlp stopwords word_synonyms phrase_synonyms ings)),
        x ≠ "" ∧ isBlank x = false) := by
  have hpw : (clean_ingredients nlp stopwords word_synonyms phrase_synonyms ings).Pairwise
      (· < ·) := pairwise_sortDedup_lt _
  have hblk : ∀ x ∈ clean_ingredients nlp stopwords word_synonyms phrase_synonyms ings,
      x ≠ "" ∧ isBlank x = false := by
    intro x hx
    obtain ⟨hne, ing, hing, hflat⟩ :=
      (mem_clean_ingredients nlp stopwords word_synonyms phrase_synonyms ings x).mp hx
    refine ⟨hne, ?_⟩
    cases hb : isBlank x with
    | false => rfl
    | true =>
      exact absurd
        (flatten_preprocess_blank nlp stopwords word_synonyms phrase_synonyms hps ing x hflat hb)
        hne
  have hpw2 : (remove_common_ingredients
      (clean_ingredients nlp stopwords word_synonyms phrase_synonyms ings)).Pairwise (· < ·) :=
    List.Pairwise.sublist (List.filter_sublist _) hpw
  have hblk2 : ∀ x ∈ remove_common_ingredients
      (clean_ingredients nlp stopwords word_synonyms phrase_synonyms ings),
      x ≠ "" ∧ isBlank x = false :=
    fun x hx => hblk x (List.mem_filter.mp hx).1
  have hpw3 : (remove_rare_ingredients rare (remove_common_ingredients
      (clean_ingredients nlp stopwords word_synonyms phrase_synonyms ings))).Pairwise (· < ·) :=
    List.Pairwise.sublist (List.filter_sublist _) hpw2
  have hblk3 : ∀ x ∈ remove_rare_ingredients rare (remove_common_ingredients
      (clean_ingredients nlp stopwords word_synonyms phrase_synonyms ings)),
      x ≠ "" ∧ isBlank x = false :=
    fun x hx => hblk2 x (List.mem_filter.mp hx).1
  exact ⟨⟨hpw, hpw.imp ne_of_lt, hblk⟩, ⟨hpw2, hpw2.imp ne_of_lt, hblk2⟩,
    ⟨hpw3, hpw3.imp ne_of_lt, hblk3⟩⟩

theorem C2_witness :
    ((clean_ingredients toyNlp [] [] [("a", StrOrList.list ["y", "x"])] ["a", "salt"]).Pairwise
        (· < ·) ∧
      (clean_ingredients toyNlp [] [] [("a", StrOrList.list ["y", "x"])] ["a", "salt"]).Nodup ∧
      ∀ x ∈ clean_ingredients toyNlp [] [] [("a", StrOrList.list ["y", "x"])] ["a", "salt"],
        x ≠ "" ∧ isBlank x = false) ∧
    ∀ x ∈ remove_rare_ingredients ["y"] (remove_common_ingredients
        (clean_ingredients toyNlp [] [] [("a", StrOrList.list ["y", "x"])] ["a", "salt"])),
      x ≠ "" ∧ isBlank x = false := by
  have h := C2_sorted_dedup_noblank toyNlp [] [] [("a", StrOrList.list ["y", "x"])]
    ["a", "salt"] ["y"] (by decide)
  exact ⟨h.1, h.2.2.2.2⟩

end PanlasangPinoy

namespace PanlasangPinoy

/-! ## Claim C3 -/

theorem mem_rare_ingredients (corpus : List (List String)) (minFreq : Nat) (r : List String)
    (i : String) (hr : r ∈ corpus) (hi : i ∈ r) :
    i ∈ rare_ingredients corpus minFreq ↔ countOcc corpus i ≤ minFreq := by
  unfold rare_ingredients
  rw [List.mem_filter, List.mem_dedup]
  constructor
  · rintro ⟨_, h2⟩
    exact of_decide_eq_true h2
  · intro h
    exact ⟨List.mem_flatMap.mpr ⟨r, hr, hi⟩, decide_eq_true h⟩

theorem mem_phaseB (corpus : List (List String)) (minFreq : Nat) (r : List String) (i : String) :
    i ∈ phaseB corpus minFreq r ↔
      i ∈ r ∧ i ∉ ingredients_to_remove ∧ i ∉ rare_ingredients corpus minFreq := by
  unfold phaseB remove_rare_ingredients remove_common_ingredients
  rw [List.mem_filter, List.mem_filter]
  constructor
  · rintro ⟨⟨h1, h2⟩, h3⟩
    simp only [Bool.not_eq_true'] at h2 h3
    refine ⟨h1, ?_, ?_⟩
    · intro hmem
      rw [(contains_iff_mem _ _).mpr hmem] at h2
      exact Bool.true_eq_false ▸ h2
    · intro hmem
      rw [(contains_iff_mem _ _).mpr hmem] at h3
      exact Bool.true_eq_false ▸ h3
  · rintro ⟨h1, h2, h3⟩
    refine ⟨⟨h1, ?_⟩, ?_⟩
    · cases hc : ingredients_to_remove.contains i with
      | false => rfl
      | true => exact absurd ((contains_iff_mem _ _).mp hc) h2
    · cases hc : (rare_ingredients corpus minFreq).contains i with
      | false => rfl
      | true => exact absurd ((contains_iff_mem _ _).mp hc) h3

/-- C3: for every recipe of the corpus, Phase B removes an ingredient exactly
when its pre-filter corpus count is at most `minFreq` (inclusive) or it is on
the denylist, and consequently every remaining ingredient has a count
strictly above `minFreq` and is not on the denylist. -/
theorem C3_phaseB_removal (corpus : List (List String)) (minFreq : Nat) (r : List String)
    (hr : r ∈ corpus) :
    (∀ i ∈ r, i ∉ phaseB corpus minFreq r ↔
        countOcc corpus i ≤ minFreq ∨ i ∈ ingredients_to_remove) ∧
    (∀ j ∈ phaseB corpus minFreq r,
        minFreq < countOcc corpus j ∧ j ∉ ingredients_to_remove) := by
  constructor
  · intro i hi
    rw [mem_phaseB]
    constructor
    · intro hnot
      by_cases hd : i ∈ ingredients_to_remove
      · exact Or.inr hd
      · left
        by_contra hcount
        exact hnot ⟨hi, hd, fun hrare =>
          hcount ((mem_rare_ingredients corpus minFreq r i hr hi).mp hrare)⟩
    · rintro (hcount | hdeny)
      · rintro ⟨_, _, hnrare⟩
        exact hnrare ((mem_rare_ingredients corpus minFreq r i hr hi).mpr hcount)
      · rintro ⟨_, hndeny, _⟩
        exact hndeny hdeny
  · intro j hj
    obtain ⟨hjr, hjdeny, hjrare⟩ := (mem_phaseB corpus minFreq r j).mp hj
    refine ⟨?_, hjdeny⟩
    by_contra hle
    exact hjrare ((mem_rare_ingredients corpus minFreq r j hr hjr).mpr (Nat.le_of_not_lt hle))

/-- Corpus for the C3 witness: `"a"` occurs in exactly `5` recipes (removed at
`MIN_FREQUENCY = 5`, inclusive), `"b"` in `6` (kept), `"salt"` is on the
denylist. -/
def corpusC3 : List (List String) :=
  List.replicate 5 ["a", "b"] ++ [["b", "salt"]]

theorem C3_witness :
    "a" ∉ phaseB corpusC3 MIN_FREQUENCY ["a", "b"] ∧
    "b" ∈ phaseB corpusC3 MIN_FREQUENCY ["a", "b"] ∧
    "salt" ∉ phaseB corpusC3 MIN_FREQUENCY ["b", "salt"] := by
  refine ⟨?_, ?_, ?_⟩
  · exact ((C3_phaseB_removal corpusC3 MIN_FREQUENCY ["a", "b"] (by decide)).1 "a"
      (by decide)).mpr (Or.inl (by decide))
  · by_contra hb
    rcases ((C3_phaseB_removal corpusC3 MIN_FREQUENCY ["a", "b"] (by decide)).1 "b"
        (by decide)).mp hb with hcount | hdeny
    · exact absurd hcount (by decide)
    · exact absurd hdeny (by decide)
  · exact ((C3_phaseB_removal corpusC3 MIN_FREQUENCY ["b", "salt"] (by decide)).1 "salt"
      (by decide)).mpr (Or.inr (by decide))

/-! ## Claim C4 -/

/-- C4: on a corpus of duplicate-free recipes, counting exploded per-recipe
occurrences (what `value_counts` does) equals counting the recipes that
contain the ingredient; and `clean_ingredients` always produces
duplicate-free recipes. -/
theorem C4_frequency_table :
    (∀ (corpus : List (List String)), (∀ r ∈ corpus, r.Nodup) →
      ∀ i, countOcc corpus i = recipes_containing corpus i) ∧
    (∀ (nlp : String → List Token) (stopwords : List String)
        (word_synonyms : List (String × String)) (phrase_synonyms : List (String × StrOrList))
        (ings : List String),
      (clean_ingredients nlp stopwords word_synonyms phrase_synonyms ings).Nodup) := by
  constructor
  · intro corpus
    induction corpus with
    | nil => intro _ i; rfl
    | cons r cs ih =>
      intro h i
      have hr : r.Nodup := h r (List.mem_cons_self _ _)
      have hcs := ih (fun t ht => h t (List.mem_cons_of_mem _ ht)) i
      unfold countOcc recipes_containing at hcs ⊢
      rw [List.flatMap_cons, List.count_append, List.filter_cons]
      by_cases hmem : i ∈ r
      · rw [show (id r : List String) = r from rfl, List.count_eq_one_of_mem hr hmem,
          if_pos ((contains_iff_mem r i).mpr hmem), List.length_cons, hcs]
        omega
      · rw [show (id r : List String) = r from rfl, List.count_eq_zero_of_not_mem hmem,
          if_neg (fun hc => hmem ((contains_iff_mem r i).mp hc)), hcs]
        omega
  · intro nlp stopwords word_synonyms phrase_synonyms ings
    exact nodup_sortDedup _

theorem C4_witness :
    countOcc [["a", "b"], ["b"], ["c"]] "b" = recipes_containing [["a", "b"], ["b"], ["c"]] "b" :=
  C4_frequency_table.1 [["a", "b"], ["b"], ["c"]] (by decide) "b"

end PanlasangPinoy

namespace PanlasangPinoy

/-! ## Claim C5 -/

theorem splitFirstAux_is_initial_segment : ∀ (sep l : List Char),
    ∃ t, splitFirstAux sep l ++ t = l := by
  intro sep l
  induction l with
  | nil => exact ⟨[], rfl⟩
  | cons c cs ih =>
    rw [splitFirstAux]
    split
    · exact ⟨c :: cs, rfl⟩
    · rcases ih with ⟨t, ht⟩
      exact ⟨t, by rw [List.cons_append, ht]⟩

/-- C5 counterexample: the claim asserts removal of every parenthesized
substring, but `remove_parentheses` (pattern `" ?\([^)]+\)"`) leaves empty
parentheses `"()"` in place, and the inline variant of
`preprocess_ingredient` (pattern `"\([^)]*\)"`) never removes the single
leading space, so its step 1 alone maps `"1 cup flour (all-purpose)"` to
`"1 cup flour "` (trailing space), not `"1 cup flour"`. -/
theorem C5_counterexample :
    remove_parentheses "a ()b" = "a ()b" ∧
    remove_parentheses "a ()b" ≠ "ab" ∧
    sub_parentheses "1 cup flour (all-purpose)" = "1 cup flour " ∧
    sub_parentheses "1 cup flour (all-purpose)" ≠ "1 cup flour" := by
  exact ⟨rfl, by decide, rfl, by decide⟩

/-- C5 amended: `clean_ingredient` composes, in order, removal of every
parenthesized substring with nonempty content together with a single leading
space (empty parentheses are left in place; `preprocess_ingredient`'s inline
variant conversely removes empty parentheses but no leading space), the
`" or "` split keeping only the first segment (an initial segment of its
input), lower-casing and trimming; any string is accepted and the output may
be empty. -/
theorem C5_text_cleaner (s : String) :
    clean_ingredient s = pyStrip (pyLower (select_first_option (remove_parentheses s))) ∧
    hasMatch2 (remove_parentheses s).data = false ∧
    (∃ t, (select_first_option s).data ++ t = s.data) ∧
    remove_parentheses "1 cup flour (all-purpose)" = "1 cup flour" ∧
    select_first_option "small lemon lemons or 6 to 7 pieces calamansi" = "small lemon lemons" ∧
    clean_ingredient " (all-purpose)" = "" :=
  ⟨rfl, remove_parentheses_no_match s, splitFirstAux_is_initial_segment _ s.data,
    rfl, rfl, rfl⟩

/-! ## Claim C6 -/

/-- Chained phrase dictionary for the C6 counterexample: `"a" ↦ "b"` and
`"b" ↦ "c"`. -/
def psynChain : List (String × StrOrList) := [("a", .str "b"), ("b", .str "c")]

/-- C6 counterexample: re-running `clean_ingredients` on its own output can
change the set, because nothing forces produced canonical tokens to be fixed
points of the pipeline (here `["a"] ↦ ["b"] ↦ ["c"]`). -/
theorem C6_counterexample :
    clean_ingredients toyNlp [] [] psynChain (clean_ingredients toyNlp [] [] psynChain ["a"]) ≠
      clean_ingredients toyNlp [] [] psynChain ["a"] := by
  decide

/-- C6 amended: `clean_ingredients` is idempotent on every recipe whose
produced canonical tokens are fixed points of the per-ingredient pipeline;
in particular the aggregation layer itself (flatten, drop empties, dedup,
sort) is idempotent. -/
theorem C6_aggregator_idempotent (nlp : String → List Token) (stopwords : List String)
    (word_synonyms : List (String × String)) (phrase_synonyms : List (String × StrOrList))
    (ings : List String)
    (hfix : ∀ x ∈ clean_ingredients nlp stopwords word_synonyms phrase_synonyms ings,
      flattenCleaned (preprocess_ingredient nlp stopwords word_synonyms phrase_synonyms x) = [x]) :
    clean_ingredients nlp stopwords word_synonyms phrase_synonyms
        (clean_ingredients nlp stopwords word_synonyms phrase_synonyms ings) =
      clean_ingredients nlp stopwords word_synonyms phrase_synonyms ings := by
  have hpw : (clean_ingredients nlp stopwords word_synonyms phrase_synonyms ings).Pairwise
      (fun a b => a.data < b.data) := pairwise_sortDedup _
  have hflat : ((clean_ingredients nlp stopwords word_synonyms phrase_synonyms ings).map
      (preprocess_ingredient nlp stopwords word_synonyms phrase_synonyms)).flatMap
        flattenCleaned =
      clean_ingredients nlp stopwords word_synonyms phrase_synonyms ings :=
    flatMap_fixed _ _ hfix
  have hfil : (clean_ingredients nlp stopwords word_synonyms phrase_synonyms ings).filter
      (fun s => s != "") = clean_ingredients nlp stopwords word_synonyms phrase_synonyms ings := by
    apply List.filter_eq_self.mpr
    intro a ha
    have hne := ((mem_clean_ingredients nlp stopwords word_synonyms phrase_synonyms ings a).mp
      ha).1
    simpa using hne
  show sortDedup
      ((((clean_ingredients nlp stopwords word_synonyms phrase_synonyms ings).map
          (preprocess_ingredient nlp stopwords word_synonyms phrase_synonyms)).flatMap
            flattenCleaned).filter (fun s => s != "")) =
    clean_ingredients nlp stopwords word_synonyms phrase_synonyms ings
  rw [hflat, hfil]
  exact sortDedup_of_pairwise _ hpw

theorem C6_witness :
    clean_ingredients toyNlp [] [] [] (clean_ingredients toyNlp [] [] [] ["a", "b a"]) =
      clean_ingredients toyNlp [] [] [] ["a", "b a"] :=
  C6_aggregator_idempotent toyNlp [] [] [] ["a", "b a"] (by
    intro x hx
    rw [show clean_ingredients toyNlp [] [] [] ["a", "b a"] = ["a", "b a"] by decide] at hx
    rcases List.mem_cons.mp hx with rfl | hx
    · rfl
    · rcases List.mem_cons.mp hx with rfl | hx
      · rfl
      · exact absurd hx (List.not_mem_nil x))

end PanlasangPinoy

namespace PanlasangPinoy

/-! ## Claim C7 -/

/-- C7: Phase C keeps a recipe iff its `cleaned_ingredients` cardinality lies
in the inclusive range `[minc, maxc]`; every survivor satisfies the bounds
and every out-of-range recipe is dropped. -/
theorem C7_recipe_size_filter (minc maxc : Nat) (corpus : List (List String)) :
    (∀ r ∈ filter_recipes_by_size minc maxc corpus,
      minc ≤ r.length ∧ r.length ≤ maxc) ∧
    (∀ r ∈ corpus, r ∈ filter_recipes_by_size minc maxc corpus ↔
      minc ≤ r.length ∧ r.length ≤ maxc) := by
  constructor
  · intro r hr
    have h := (List.mem_filter.mp hr).2
    simp only [Bool.and_eq_true, decide_eq_true_eq] at h
    exact h
  · intro r hr
    unfold filter_recipes_by_size
    rw [List.mem_filter]
    simp only [Bool.and_eq_true, decide_eq_true_eq]
    constructor
    · rintro ⟨_, h⟩; exact h
    · intro h; exact ⟨hr, h⟩

theorem C7_witness :
    ["a", "b", "c", "d"] ∈ filter_recipes_by_size MIN_INGREDIENT MAX_INGREDIENT
      [["a", "b", "c", "d"], ["a", "b", "c"]] ∧
    ["a", "b", "c"] ∉ filter_recipes_by_size MIN_INGREDIENT MAX_INGREDIENT
      [["a", "b", "c", "d"], ["a", "b", "c"]] := by
  have h := C7_recipe_size_filter MIN_INGREDIENT MAX_INGREDIENT
    [["a", "b", "c", "d"], ["a", "b", "c"]]
  constructor
  · exact (h.2 _ (by decide)).mpr (by decide)
  · intro hmem
    exact absurd ((h.2 _ (by decide)).mp hmem) (by decide)

/-! ## Claim C8 -/

/-- Modelled from the spec (§4.2 wording): the effective POS tag after the
override that forces known keys to `NOUN`. -/
def posOverrideSpec (t : Token) : String :=
  if t.text ∈ outliers then "NOUN" else t.pos_

/-- Modelled from the spec (§4.2 wording): a token's lemma is retained iff it
is alphabetic, not a generic stopword, and its effective tag is noun or
proper noun. -/
def retainSpec (t : Token) : Prop :=
  t.is_alpha = true ∧ t.is_stop = false ∧
    (posOverrideSpec t = "NOUN" ∨ posOverrideSpec t = "PROPN")

instance (t : Token) : Decidable (retainSpec t) := by
  unfold retainSpec posOverrideSpec
  infer_instance

theorem retain_cond (t : Token) :
    (t.is_alpha && !t.is_stop &&
      ((if outliers.contains t.text then "NOUN" else t.pos_) == "NOUN" ||
       (if outliers.contains t.text then "NOUN" else t.pos_) == "PROPN")) =
      decide (retainSpec t) := by
  have hif : (if outliers.contains t.text then "NOUN" else t.pos_) = posOverrideSpec t :=
    if_congr (contains_iff_mem outliers t.text) rfl rfl
  rw [hif, Bool.eq_iff_iff, decide_eq_true_eq]
  unfold retainSpec
  simp [Bool.and_eq_true, Bool.or_eq_true, beq_iff_eq, Bool.not_eq_true', and_assoc]

theorem filterMap_guard_eq {α : Type} (p : α → Bool) (g : α → String) :
    ∀ (l : List α),
      (l.filterMap (fun a => if p a then some (g a) else none)) = (l.filter p).map g := by
  intro l
  induction l with
  | nil => rfl
  | cons a l ih =>
    by_cases hp : p a = true
    · simp [List.filterMap_cons, List.filter_cons, hp, ih]
    · simp [List.filterMap_cons, List.filter_cons, hp, ih]

/-- C8: `lemmatize_valid_nouns` tokenizes via the tagger, forces the tag of
POS-override keys to `NOUN`, retains a token's lemma exactly when the token
is alphabetic, not a generic stopword, and tagged noun or proper noun, and
joins the retained lemmas with single spaces in tagger emission order
(`retainSpec`/`posOverrideSpec` restate the spec's wording); the output is
empty when nothing is retained. -/
theorem C8_linguistic_filter (nlp : String → List Token) (s : String) :
    lemmatize_valid_nouns nlp s =
      joinSpace (((nlp s).filter (fun t => decide (retainSpec t))).map Token.lemma_) ∧
    lemmatize_valid_nouns (fun _ => []) s = "" := by
  constructor
  · show joinSpace ((nlp s).filterMap (fun token =>
        if (token.is_alpha && !token.is_stop &&
          ((if outliers.contains token.text then "NOUN" else token.pos_) == "NOUN" ||
           (if outliers.contains token.text then "NOUN" else token.pos_) == "PROPN"))
        then some token.lemma_ else none)) = _
    have hfun : (fun token : Token =>
        if (token.is_alpha && !token.is_stop &&
          ((if outliers.contains token.text then "NOUN" else token.pos_) == "NOUN" ||
           (if outliers.contains token.text then "NOUN" else token.pos_) == "PROPN"))
        then some token.lemma_ else none) =
        (fun t : Token => if decide (retainSpec t) then some (Token.lemma_ t) else none) :=
      funext fun t => by rw [retain_cond t]
    rw [hfun, filterMap_guard_eq]
  · rfl

/-! ## Claim C9 -/

/-- C9: the per-recipe aggregator is a pure function of the recipe (and the
fixed Lexicon and tagger): the result at each corpus position depends only on
that recipe, and permuting the processing order of the corpus permutes the
results correspondingly. -/
theorem C9_order_independence (nlp : String → List Token) (stopwords : List String)
    (word_synonyms : List (String × String)) (phrase_synonyms : List (String × StrOrList)) :
    (∀ (corpus : List (List String)) (i : Nat),
      (processCorpus nlp stopwords word_synonyms phrase_synonyms corpus)[i]? =
        (corpus[i]?).map (clean_ingredients nlp stopwords word_synonyms phrase_synonyms)) ∧
    (∀ c₁ c₂ : List (List String), c₁.Perm c₂ →
      (processCorpus nlp stopwords word_synonyms phrase_synonyms c₁).Perm
        (processCorpus nlp stopwords word_synonyms phrase_synonyms c₂)) := by
  constructor
  · intro corpus i
    exact List.getElem?_map _ _ _
  · intro c₁ c₂ h
    exact h.map _

theorem C9_witness :
    (processCorpus toyNlp [] [] [] [["b"], ["a"]]).Perm
      (processCorpus toyNlp [] [] [] [["a"], ["b"]]) :=
  (C9_order_independence toyNlp [] [] []).2 [["b"], ["a"]] [["a"], ["b"]]
    (List.Perm.swap ["a"] ["b"] [])

/-! ## Claim C10 -/

/-- C10 counterexample: `handle_word_synonym` substitutes dictionary values
verbatim, so a whitespace-only synonym value yields a nonempty
whitespace-only output, which is moreover not whitespace-normalized. -/
theorem C10_counterexample :
    handle_word_synonym [("x", " ")] "x" = " " ∧
    (" " : String) ≠ "" ∧ isBlank " " = true ∧ ¬ isNormalized " " := by
  exact ⟨by decide, by decide, by decide, by decide⟩

/-- C10 amended: `filter_stopwords` and `remove_duplicates` always return a
whitespace-normalized string (no leading/trailing whitespace, single-space
separators, `""` when nothing is retained); `handle_word_synonym` and
`lemmatize_valid_nouns` do so provided each substituted synonym value and
each tagger lemma is a nonempty whitespace-free word; and a normalized
string is never whitespace-only unless empty. -/
theorem C10_stage_normalization (nlp : String → List Token) (stopwords : List String)
    (word_synonyms : List (String × String)) (s t : String) :
    isNormalized (filter_stopwords stopwords t) ∧
    isNormalized (remove_duplicates t) ∧
    ((∀ p ∈ word_synonyms, goodWord p.2) →
      isNormalized (handle_word_synonym word_synonyms t)) ∧
    ((∀ tok ∈ nlp s, goodWord tok.lemma_) →
      isNormalized (lemmatize_valid_nouns nlp s)) ∧
    (∀ u : String, isNormalized u → isBlank u = true → u = "") :=
  ⟨filter_stopwords_normalized stopwords t,
   remove_duplicates_normalized t,
   fun h => handle_word_synonym_normalized word_synonyms t h,
   fun h => lemmatize_valid_nouns_normalized nlp s h,
   fun u => normalized_blank u⟩

theorem C10_witness :
    isNormalized (handle_word_synonym [("x", "yz")] "x a") ∧
    isNormalized (lemmatize_valid_nouns toyNlp "b c") :=
  ⟨(C10_stage_normalization toyNlp [] [("x", "yz")] "b c" "x a").2.2.1 (by decide),
   (C10_stage_normalization toyNlp [] [("x", "yz")] "b c" "x a").2.2.2.1 (by decide)⟩

end PanlasangPinoy
